import Mathlib

/-!
Verification of the BBS distributed messaging service (Python sources).

Shallow embedding of the coordination-plane components:
persistence (`DataStore.load`), message codec (`create_message`),
registry (`ReferenceServer` handlers), election request handling,
Berkeley offset computation, client login, and the replication
merge functions (`_merge_logins`, `_merge_channels`, `_merge_messages`).

Python floats are modelled as `ℚ` (only comparison and exact arithmetic
occur in the verified code paths), Python ints as `Int`/`Nat`, Python
dicts as insertion-ordered association lists, Python sets as `Finset`.
-/

/-- A Python/JSON value, as stored and loaded by `persistence.py`. -/
inductive PyVal where
  | pynone
  | num (q : ℚ)
  | int (n : Int)
  | str (s : String)
  | boolean (b : Bool)
  | list (items : List PyVal)
  | dict (entries : List (String × PyVal))

/-- `v is None` in Python. -/
def PyVal.isNone : PyVal → Bool
  | .pynone => true
  | _ => false

/-- `DataStore.load` from `common_utils/persistence.py`.
`fileExists` models `filepath.exists()`; `contents` is `some v` when the
file parses to `v` and `none` when `json.load` raises
(`JSONDecodeError`/`IOError`, caught by the handler). -/
def DataStore.load (fileExists : Bool) (contents : Option PyVal) (default : PyVal) : PyVal :=
  if fileExists = false then
    (if default.isNone = false then default else PyVal.list [])
  else
    match contents with
    | some v => v
    | none => (if default.isNone = false then default else PyVal.list [])

/-- Python dict assignment `d[k] = v`: replaces the value in place if the
key exists, otherwise appends the new key at the end (insertion order). -/
def dictSet (d : List (String × PyVal)) (k : String) (v : PyVal) : List (String × PyVal) :=
  match d with
  | [] => [(k, v)]
  | (k', v') :: rest => if k' = k then (k, v) :: rest else (k', v') :: dictSet rest k v

/-- Python dict read `d[k]` / `d.get(k)`: first matching key. -/
def dictGet (d : List (String × PyVal)) (k : String) : Option PyVal :=
  match d with
  | [] => none
  | (k', v') :: rest => if k' = k then some v' else dictGet rest k

/-- `LogicalClock.increment` from `common_utils/logical_clock.py`:
bumps the counter and returns the new value. -/
def LogicalClock.increment (counter : Nat) : Nat × Nat :=
  (counter + 1, counter + 1)

/-- The wire envelope `{service, data}` built by `create_message`. -/
structure Envelope where
  service : String
  data : List (String × PyVal)

/-- `create_message` from `common_utils/messaging.py`.  The Python function
mutates the caller's `data` dict in place (`data['timestamp'] = ...`,
`data['clock'] = ...`) and serializes `{service, data}`.  The embedding
returns the envelope, the caller's dictionary after the call (the same
object in Python), and the new clock counter. -/
def create_message (service : String) (data : List (String × PyVal)) (now : ℚ)
    (counter : Nat) : Envelope × List (String × PyVal) × Nat :=
  let inc := LogicalClock.increment counter
  let clockValue := inc.2
  let d1 := dictSet data "timestamp" (PyVal.num now)
  let d2 := dictSet d1 "clock" (PyVal.int (clockValue : Int))
  (⟨service, d2⟩, d2, inc.1)

/-! ## Election manager (`server/election_manager.py`) -/

/-- The `data` dict of an incoming `election` request (fields read by the
handler: `data.get('rank', 0)` and `data.get('server', '')`). -/
structure ElectionRequestData where
  rank : Option Int
  server : Option String

/-- The `data` part of the handler's response. -/
structure ElectionResponseData where
  status : String
  rank : Int
  server : String

/-- `ElectionManager._handle_election_request`.  Returns the response and
whether a new background election thread is started
(`Thread(target=self.start_election, ...)`). -/
def handle_election_request (selfRank : Int) (selfName : String)
    (data : ElectionRequestData) : ElectionResponseData × Bool :=
  let requesterRank := data.rank.getD 0
  let startsElection := decide (selfRank > requesterRank)
  (⟨"OK", selfRank, selfName⟩, startsElection)

/-! ## Berkeley synchronizer (`server/berkeley_sync.py`) -/

/-- `BerkeleySynchronizer.calculate_offsets`.  The timestamps dict is
modelled as an association list; offsets are `avg_time - timestamp`
for each entry. -/
def calculate_offsets (timestamps : List (String × ℚ)) : List (String × ℚ) :=
  if timestamps.isEmpty then []
  else
    let avg_time : ℚ := (timestamps.map Prod.snd).sum / (timestamps.length : ℚ)
    timestamps.map (fun p => (p.1, avg_time - p.2))

/-- The arithmetic mean of the collected samples. -/
def berkeleyMean (timestamps : List (String × ℚ)) : ℚ :=
  (timestamps.map Prod.snd).sum / (timestamps.length : ℚ)

/-! ## Client login (`server/server.py`, `MessageServer.handle_login`) -/

/-- A response as built by `create_response` (status plus optional
description; clock/timestamp injection is orthogonal to the claims). -/
structure LoginResponse where
  status : String
  description : Option String
deriving DecidableEq

/-- `MessageServer.handle_login`: `data.get('user', '')`, rejects empty or
already-registered users, otherwise adds the user to the in-memory set. -/
def handle_login (users : Finset String) (data : Option String) :
    LoginResponse × Finset String :=
  let user := data.getD ""
  if user = "" then
    (⟨"erro", some "Nome de usuário não fornecido"⟩, users)
  else if user ∈ users then
    (⟨"erro", some "Usuário já cadastrado"⟩, users)
  else
    (⟨"sucesso", none⟩, insert user users)

/-! ## Registry (`reference_server/reference_server.py`) -/

/-- A server descriptor stored in the roster:
`{rank: int, last_heartbeat: float}`. -/
structure SInfo where
  rank : Nat
  lastHeartbeat : Int
deriving DecidableEq

/-- The registry's mutable state: the roster dict (insertion-ordered
association list, as a Python dict) and the `next_rank` counter. -/
structure RegState where
  servers : List (String × SInfo)
  nextRank : Nat
deriving DecidableEq

/-- `name in self.servers` / `self.servers[name]` on the roster dict. -/
def findServer (servers : List (String × SInfo)) (user : String) : Option SInfo :=
  match servers with
  | [] => none
  | (n, i) :: rest => if n = user then some i else findServer rest user

/-- `self.servers[user]['last_heartbeat'] = time.time()`. -/
def updateHeartbeat (servers : List (String × SInfo)) (user : String) (now : Int) :
    List (String × SInfo) :=
  servers.map fun p => if p.1 = user then (p.1, ⟨p.2.rank, now⟩) else p

/-- A registry response: status, the rank carried by a `rank` response,
and the optional error description. -/
structure RegResponse where
  status : String
  rank : Option Nat
  description : Option String
deriving DecidableEq

/-- Result of one registry handler call: the new state, the response,
and whether `_save_state()` ran before the response was returned. -/
structure RegResult where
  state : RegState
  response : RegResponse
  saved : Bool
deriving DecidableEq

/-- `ReferenceServer.handle_rank_request`: empty name is an error;
a known server gets its existing rank and a heartbeat refresh; an unknown
server is registered under `next_rank` (then incremented).  Both mutating
branches call `_save_state()` inside the lock, before responding. -/
def handle_rank_request (st : RegState) (user : String) (now : Int) : RegResult :=
  if user = "" then
    ⟨st, ⟨"erro", none, some "Nome do servidor não fornecido"⟩, false⟩
  else
    match findServer st.servers user with
    | some info =>
        ⟨⟨updateHeartbeat st.servers user now, st.nextRank⟩,
         ⟨"sucesso", some info.rank, none⟩, true⟩
    | none =>
        ⟨⟨st.servers ++ [(user, ⟨st.nextRank, now⟩)], st.nextRank + 1⟩,
         ⟨"sucesso", some st.nextRank, none⟩, true⟩

/-- `ReferenceServer.handle_heartbeat`: refreshes `last_heartbeat` for a
known server, auto-registers an unknown one under a fresh rank.  Neither
branch calls `_save_state()`. -/
def handle_heartbeat (st : RegState) (user : String) (now : Int) : RegResult :=
  if user = "" then
    ⟨st, ⟨"erro", none, some "Nome do servidor não fornecido"⟩, false⟩
  else
    match findServer st.servers user with
    | some _ =>
        ⟨⟨updateHeartbeat st.servers user now, st.nextRank⟩, ⟨"sucesso", none, none⟩, false⟩
    | none =>
        ⟨⟨st.servers ++ [(user, ⟨st.nextRank, now⟩)], st.nextRank + 1⟩,
         ⟨"sucesso", none, none⟩, false⟩

/-- `ReferenceServer.handle_list_request`: lists every rostered server as
`{name, rank}`, with no liveness filtering. -/
def handle_list_request (st : RegState) : List (String × Nat) :=
  st.servers.map fun p => (p.1, p.2.rank)

/-- `HEARTBEAT_TIMEOUT = 30` seconds. -/
def HEARTBEAT_TIMEOUT : Int := 30

/-- `ReferenceServer._cleanup_inactive_servers`: drops every roster entry
with `now - last_heartbeat > HEARTBEAT_TIMEOUT` (re-persisting if any
was dropped; the persisted value is the returned roster). -/
def cleanup_inactive_servers (st : RegState) (now : Int) : RegState :=
  ⟨st.servers.filter (fun p => !decide (now - p.2.lastHeartbeat > HEARTBEAT_TIMEOUT)),
   st.nextRank⟩

/-- One request arriving at the registry's REQ/REP loop, or one tick of
the background cleanup thread. -/
inductive RegEvent where
  | rankReq (user : String) (now : Int)
  | heartbeatReq (user : String) (now : Int)
  | sweep (now : Int)

/-- Runs the registry over a sequence of events, collecting, in order:
the `(name, rank)` associations handed out (rank responses plus heartbeat
auto-registrations) and the ranks newly allocated from `next_rank`. -/
def runRegistry (st : RegState) : List RegEvent → RegState × List (String × Nat) × List Nat
  | [] => (st, [], [])
  | e :: rest =>
    let st' : RegState :=
      match e with
      | .rankReq u n => (handle_rank_request st u n).state
      | .heartbeatReq u n => (handle_heartbeat st u n).state
      | .sweep n => cleanup_inactive_servers st n
    let asgHere : List (String × Nat) :=
      match e with
      | .rankReq u n =>
          match (handle_rank_request st u n).response.rank with
          | some rk => [(u, rk)]
          | none => []
      | .heartbeatReq u _ => if st'.nextRank ≠ st.nextRank then [(u, st.nextRank)] else []
      | .sweep _ => []
    let allocHere : List Nat := if st'.nextRank ≠ st.nextRank then [st.nextRank] else []
    let r := runRegistry st' rest
    (r.1, asgHere ++ r.2.1, allocHere ++ r.2.2)

/-- The registry's boot state when no `reference.json` exists:
empty roster, `next_rank = 1`. -/
def regInit : RegState := ⟨[], 1⟩

/-- No two distinct names are ever associated with the same rank. -/
def AsgInj (asg : List (String × Nat)) : Prop :=
  ∀ p ∈ asg, ∀ q ∈ asg, p.2 = q.2 → p.1 = q.1

/-! ## Replication merges (`server/replication_manager.py`) -/

/-- A replicated login record `{user, timestamp, clock}`.  Fields are
optional because merge inputs are arbitrary dicts read with `.get`/`in`. -/
structure LoginRec where
  user : Option String
  timestamp : Option Int
  clock : Option Int
deriving DecidableEq

/-- A replicated channel record `{channel, timestamp, clock}`. -/
structure ChannelRec where
  channel : Option String
  timestamp : Option Int
  clock : Option Int
deriving DecidableEq

/-- A message record: the fields read by `_get_message_id` and by the
sort key of `_merge_messages`.  Optional fields model `dict.get` with
its defaults. -/
structure Msg where
  type : Option String
  timestamp : Option Int
  clock : Option Int
  user : Option String
  src : Option String
  channel : Option String
  dst : Option String
  message : Option String
deriving DecidableEq

/-- `ReplicationManager._get_message_id`: the dedup tuple
`(timestamp, clock, msg_type, user, target, message_text)`. -/
def get_message_id (m : Msg) : Int × Int × String × String × String × String :=
  let msgType := m.type.getD ""
  let timestamp := m.timestamp.getD 0
  let clock := m.clock.getD 0
  let user := m.user.getD (m.src.getD "")
  let target := if msgType = "publish" then m.channel.getD "" else m.dst.getD ""
  let messageText := m.message.getD ""
  (timestamp, clock, msgType, user, target, messageText)

/-- The sort key `(m.get('timestamp', 0), m.get('clock', 0))`. -/
def msgSortKey (m : Msg) : Int × Int := (m.timestamp.getD 0, m.clock.getD 0)

/-- Python's lexicographic tuple comparison on the sort keys, as the
Boolean `le` handed to the (stable) sort. -/
def msgLE (a b : Msg) : Bool :=
  decide ((msgSortKey a).1 < (msgSortKey b).1 ∨
    ((msgSortKey a).1 = (msgSortKey b).1 ∧ (msgSortKey a).2 ≤ (msgSortKey b).2))

/-- The `for ... in new: if key fresh: append; remember key` loop shared
by the three merge functions.  `key a = none` models a record lacking the
identifying dict key (such records are never appended); `ids` is the
`existing_*` set accumulated so far. -/
def addNewRecords {α κ : Type} [DecidableEq κ] (key : α → Option κ)
    (ids : List κ) : List α → List α
  | [] => []
  | a :: rest =>
    match key a with
    | none => addNewRecords key ids rest
    | some k =>
        if k ∈ ids then addNewRecords key ids rest
        else a :: addNewRecords key (k :: ids) rest

/-- The identifying keys present in a record list (`{login['user'] for
login in existing if 'user' in login}` and its analogues). -/
def keysOf {α κ : Type} (key : α → Option κ) (l : List α) : List κ :=
  l.filterMap key

/-- The key used by `_merge_logins`. -/
def loginKey (l : LoginRec) : Option String := l.user

/-- The key used by `_merge_channels`. -/
def channelKey (c : ChannelRec) : Option String := c.channel

/-- The key used by `_merge_messages` (total: `_get_message_id` applies
`.get` defaults, so every dict has an id). -/
def msgKey (m : Msg) : Option (Int × Int × String × String × String × String) :=
  some (get_message_id m)

/-- `ReplicationManager._merge_logins`: appends the new records whose
`user` is fresh, then stores the result (no reordering). -/
def merge_logins (existing new_logins : List LoginRec) : List LoginRec :=
  existing ++ addNewRecords loginKey (keysOf loginKey existing) new_logins

/-- `ReplicationManager._merge_channels`. -/
def merge_channels (existing new_channels : List ChannelRec) : List ChannelRec :=
  existing ++ addNewRecords channelKey (keysOf channelKey existing) new_channels

/-- `ReplicationManager._merge_messages`: appends the messages whose dedup
tuple is fresh, then re-sorts the whole list by `(timestamp, clock)` with
a stable sort (Python's `list.sort`). -/
def merge_messages (existing new_messages : List Msg) : List Msg :=
  (existing ++ addNewRecords msgKey (keysOf msgKey existing) new_messages).mergeSort msgLE

/-- Registry state invariant: `next_rank` is at least 1, every rostered
rank lies in `[1, next_rank)`, and no two distinct rostered names share
a rank. -/
def GoodState (st : RegState) : Prop :=
  1 ≤ st.nextRank ∧
  (∀ p ∈ st.servers, 1 ≤ p.2.rank ∧ p.2.rank < st.nextRank) ∧
  (∀ p ∈ st.servers, ∀ q ∈ st.servers, p.2.rank = q.2.rank → p.1 = q.1)

/-- Strict-or-equal ordering on messages by `(timestamp, clock)`:
the antisymmetric companion of `msgLE` used to compare sorted outputs. -/
def msgStrictLE (a b : Msg) : Prop :=
  (msgSortKey a).1 < (msgSortKey b).1 ∨
    ((msgSortKey a).1 = (msgSortKey b).1 ∧ (msgSortKey a).2 < (msgSortKey b).2) ∨ a = b

instance : IsAntisymm Msg msgStrictLE where
  antisymm a b hab hba := by
    rcases hab with h | ⟨h1, h2⟩ | h <;> rcases hba with h' | ⟨h1', h2'⟩ | h' <;>
      first | omega | exact h | exact h'.symm

/-- The full induction invariant for `runRegistry`: the final state is
good, `next_rank` grows monotonically, the allocated ranks are exactly
the consecutive range consumed from `next_rank`, every association is in
`[1, final next_rank)`, associations below the starting `next_rank` stem
from the starting roster, associations respect the starting roster's
name/rank bindings, and no rank is associated with two names. -/
def RunInv (st : RegState) (events : List RegEvent) : Prop :=
  GoodState (runRegistry st events).1 ∧
  st.nextRank ≤ (runRegistry st events).1.nextRank ∧
  (runRegistry st events).2.2 =
    List.range' st.nextRank ((runRegistry st events).1.nextRank - st.nextRank) ∧
  (∀ p ∈ (runRegistry st events).2.1, 1 ≤ p.2 ∧ p.2 < (runRegistry st events).1.nextRank) ∧
  (∀ p ∈ (runRegistry st events).2.1, p.2 < st.nextRank →
    ∃ i, (p.1, i) ∈ st.servers ∧ i.rank = p.2) ∧
  (∀ name i, (name, i) ∈ st.servers →
    ∀ p ∈ (runRegistry st events).2.1, p.2 = i.rank → p.1 = name) ∧
  AsgInj (runRegistry st events).2.1

/-! ## Theorems: persistence (C2) -/

/-- C2 counterexample: with `default = None` (the parameter's own default),
`DataStore.load` on a missing file returns `[]`, not the given default. -/
theorem load_default_none_counterexample :
    DataStore.load false none PyVal.pynone = PyVal.list [] ∧
      PyVal.list [] ≠ PyVal.pynone := by
  refine ⟨rfl, ?_⟩
  intro h
  cases h

/-- C2 (amended): provided the given default is not `None`,
`DataStore.load` returns exactly that default when the file is missing
and when the file exists but fails to parse; when the default is `None`
it returns `[]` instead.  No exception escapes (the embedding is total;
the parse-failure branch is the caught-exception path). -/
theorem load_returns_default (contents : Option PyVal) (default : PyVal)
    (h : default.isNone = false) :
    DataStore.load false contents default = default ∧
      DataStore.load true none default = default := by
  simp [DataStore.load, h]

/-- Witness for `load_returns_default` at `default = "x"`. -/
theorem load_returns_default_witness :
    (PyVal.str "x").isNone = false ∧
      (DataStore.load false none (PyVal.str "x") = PyVal.str "x" ∧
        DataStore.load true none (PyVal.str "x") = PyVal.str "x") :=
  ⟨rfl, load_returns_default none (PyVal.str "x") rfl⟩

/-! ## Theorems: election request handling (C6) -/

/-- C6: the election-request handler always answers `{status: "OK",
rank: self.rank}`, and it starts a background election exactly when the
receiver's rank is strictly greater than the requester's. -/
theorem election_request_ok_and_trigger (selfRank : Int) (selfName : String)
    (r : Int) (srv : Option String) :
    (handle_election_request selfRank selfName ⟨some r, srv⟩).1.status = "OK" ∧
      (handle_election_request selfRank selfName ⟨some r, srv⟩).1.rank = selfRank ∧
      ((handle_election_request selfRank selfName ⟨some r, srv⟩).2 = true ↔ selfRank > r) := by
  refine ⟨rfl, rfl, ?_⟩
  simp [handle_election_request]

/-- Witness for `election_request_ok_and_trigger` at ranks 5 and 3. -/
theorem election_request_witness :
    (handle_election_request 5 "s" ⟨some 3, none⟩).1.status = "OK" ∧
      (handle_election_request 5 "s" ⟨some 3, none⟩).1.rank = 5 ∧
      ((handle_election_request 5 "s" ⟨some 3, none⟩).2 = true ↔ (5 : Int) > 3) :=
  election_request_ok_and_trigger 5 "s" 3 none

/-! ## Theorems: Berkeley offsets (C7) -/

theorem sum_map_const_sub (c : ℚ) (l : List ℚ) :
    (l.map (fun t => c - t)).sum = l.length * c - l.sum := by
  induction l with
  | nil => simp
  | cons h t ih => simp [ih]; ring

/-- C7: on a non-empty timestamps map, each computed offset is
`mean − t_i`, and in exact arithmetic the offsets sum to zero. -/
theorem calculate_offsets_mean_and_sum_zero (ts : List (String × ℚ)) (h : ts ≠ []) :
    calculate_offsets ts = ts.map (fun p => (p.1, berkeleyMean ts - p.2)) ∧
      ((calculate_offsets ts).map Prod.snd).sum = 0 := by
  have hne : ts.isEmpty = false := by
    cases ts with
    | nil => exact absurd rfl h
    | cons a l => rfl
  have hlen : (ts.length : ℚ) ≠ 0 := by
    have : ts.length ≠ 0 := by
      cases ts with
      | nil => exact absurd rfl h
      | cons a l => simp
    exact_mod_cast this
  constructor
  · simp [calculate_offsets, hne, berkeleyMean]
  · simp only [calculate_offsets, hne, Bool.false_eq_true, if_false, List.map_map]
    have : (Prod.snd ∘ fun p : String × ℚ =>
        (p.1, (ts.map Prod.snd).sum / (ts.length : ℚ) - p.2)) =
        (fun p : String × ℚ => (ts.map Prod.snd).sum / (ts.length : ℚ) - p.2) := rfl
    rw [this]
    have hmap : ts.map (fun p : String × ℚ =>
        (ts.map Prod.snd).sum / (ts.length : ℚ) - p.2) =
        (ts.map Prod.snd).map (fun t => (ts.map Prod.snd).sum / (ts.length : ℚ) - t) := by
      rw [List.map_map]
      rfl
    rw [hmap, sum_map_const_sub]
    rw [List.length_map]
    field_simp

/-- Witness for `calculate_offsets_mean_and_sum_zero` at two samples. -/
theorem calculate_offsets_witness :
    ([(("a" : String), (1 : ℚ)), ("b", 3)] ≠ []) ∧
      (calculate_offsets [(("a" : String), (1 : ℚ)), ("b", 3)] =
          [(("a" : String), (1 : ℚ)), ("b", 3)].map
            (fun p => (p.1, berkeleyMean [(("a" : String), (1 : ℚ)), ("b", 3)] - p.2)) ∧
        ((calculate_offsets [(("a" : String), (1 : ℚ)), ("b", 3)]).map Prod.snd).sum = 0) :=
  ⟨by simp, calculate_offsets_mean_and_sum_zero _ (by simp)⟩

/-! ## Theorems: login (C8) -/

/-- C8: `handle_login` answers `erro` exactly for a missing/empty user or
an already-registered user (with description `Usuário já cadastrado` in
the duplicate case), leaves the users set unchanged on error, and on
success answers `sucesso` with the user added to the set. -/
theorem handle_login_spec (users : Finset String) (data : Option String) :
    ((handle_login users data).1.status = "erro" ↔
        (data.getD "" = "" ∨ data.getD "" ∈ users)) ∧
      ((handle_login users data).1.status = "erro" →
        (handle_login users data).2 = users) ∧
      (data.getD "" ≠ "" → data.getD "" ∈ users →
        (handle_login users data).1.description = some "Usuário já cadastrado") ∧
      ((handle_login users data).1.status = "sucesso" ↔
        ¬(data.getD "" = "" ∨ data.getD "" ∈ users)) ∧
      ((handle_login users data).1.status = "sucesso" →
        (handle_login users data).2 = insert (data.getD "") users) := by
  by_cases h1 : data.getD "" = ""
  · simp [handle_login, h1]
  · by_cases h2 : data.getD "" ∈ users
    · simp [handle_login, h1, h2]
    · simp [handle_login, h1, h2]

/-- Witness for `handle_login_spec`: duplicate login of `alice`. -/
theorem handle_login_witness :
    (handle_login (insert "alice" ∅) (some "alice")).1.description =
      some "Usuário já cadastrado" :=
  (handle_login_spec (insert "alice" ∅) (some "alice")).2.2.1 (by decide) (by decide)

/-! ## Theorems: create_message in-place update (C10) -/

theorem dictGet_dictSet_same (d : List (String × PyVal)) (k : String) (v : PyVal) :
    dictGet (dictSet d k v) k = some v := by
  induction d with
  | nil => simp [dictSet, dictGet]
  | cons p rest ih =>
    obtain ⟨k', v'⟩ := p
    by_cases h : k' = k
    · simp [dictSet, dictGet, h]
    · simp [dictSet, dictGet, h, ih]

theorem dictGet_dictSet_other (d : List (String × PyVal)) (k k' : String) (v : PyVal)
    (h : k' ≠ k) :
    dictGet (dictSet d k v) k' = dictGet d k' := by
  induction d with
  | nil => simp [dictSet, dictGet, Ne.symm h]
  | cons p rest ih =>
    obtain ⟨k₀, v₀⟩ := p
    by_cases h₀ : k₀ = k
    · subst h₀
      simp [dictSet, dictGet, Ne.symm h]
    · by_cases h₁ : k₀ = k'
      · simp [dictSet, dictGet, h₀, h₁, h, Ne.symm h]
      · simp [dictSet, dictGet, h₀, h₁, ih]

/-- C10: `create_message` updates the caller's dict in place: afterwards
it holds the freshly injected `timestamp` and `clock` (overwriting
whatever was stored there), the serialized envelope carries that same
dict, and the returned clock is the incremented counter. -/
theorem create_message_mutates_caller (service : String)
    (data : List (String × PyVal)) (now : ℚ) (counter : Nat) :
    dictGet (create_message service data now counter).2.1 "timestamp" =
        some (PyVal.num now) ∧
      dictGet (create_message service data now counter).2.1 "clock" =
        some (PyVal.int ((counter + 1 : Nat) : Int)) ∧
      (create_message service data now counter).1.data =
        (create_message service data now counter).2.1 ∧
      (create_message service data now counter).2.2 = counter + 1 := by
  refine ⟨?_, ?_, rfl, rfl⟩
  · rw [show (create_message service data now counter).2.1 =
      dictSet (dictSet data "timestamp" (PyVal.num now)) "clock"
        (PyVal.int ((counter + 1 : Nat) : Int)) from rfl]
    rw [dictGet_dictSet_other _ _ _ _ (by decide), dictGet_dictSet_same]
  · exact dictGet_dictSet_same ..

/-! ## Theorems: registry persistence (C3) and eviction (C4) -/

/-- C3 counterexample: a heartbeat that auto-registers an unknown server
mutates the roster yet returns without persisting it
(`handle_heartbeat` never calls `_save_state`). -/
theorem heartbeat_mutates_without_save :
    (handle_heartbeat regInit "s1" 0).state ≠ regInit ∧
      (handle_heartbeat regInit "s1" 0).saved = false := by
  constructor
  · intro h
    have := congrArg (fun st => st.servers.length) h
    simp [handle_heartbeat, regInit, findServer] at this
  · rfl

/-- C3 (amended): a `rank` request with a non-empty name persists the
roster before responding (covering both refresh and new registration);
a `rank` request with an empty name neither mutates nor saves; and a
heartbeat request — including the auto-registration path — never
persists the roster before responding. -/
theorem rank_saves_heartbeat_does_not (st : RegState) (user : String) (now : Int) :
    (user ≠ "" → (handle_rank_request st user now).saved = true) ∧
      (user = "" → (handle_rank_request st user now).state = st ∧
        (handle_rank_request st user now).saved = false) ∧
      (handle_heartbeat st user now).saved = false := by
  refine ⟨?_, ?_, ?_⟩
  · intro h
    unfold handle_rank_request
    rw [if_neg h]
    cases findServer st.servers user <;> rfl
  · intro h
    unfold handle_rank_request
    rw [if_pos h]
    exact ⟨rfl, rfl⟩
  · unfold handle_heartbeat
    by_cases h : user = ""
    · rw [if_pos h]
    · rw [if_neg h]
      cases findServer st.servers user <;> rfl

/-- Witness for `rank_saves_heartbeat_does_not` at a fresh registration. -/
theorem rank_saves_witness :
    ("s1" : String) ≠ "" ∧ (handle_rank_request regInit "s1" 0).saved = true :=
  ⟨by decide, (rank_saves_heartbeat_does_not regInit "s1" 0).1 (by decide)⟩

/-- C4 counterexample: a server whose heartbeat is 100 s old (beyond the
30 s window) still appears in the next `list` response — `list` does no
filtering; only the 10 s background sweep evicts. -/
theorem stale_server_in_list_counterexample :
    (100 : Int) - (0 : Int) > HEARTBEAT_TIMEOUT ∧
      ("s1", 1) ∈ handle_list_request ⟨[("s1", ⟨1, 0⟩)], 2⟩ := by
  constructor
  · decide
  · simp [handle_list_request]

/-- C4 (amended): the `list` handler returns every rostered server; the
periodic cleanup removes exactly the servers whose last heartbeat is more
than 30 s old, so a stale server is absent from `list` responses only
after a cleanup runs, while a server with a heartbeat inside the window
survives cleanup and stays in the `list` response. -/
theorem cleanup_eviction_spec (st : RegState) (now : Int) (name : String) (info : SInfo) :
    ((name, info) ∈ (cleanup_inactive_servers st now).servers ↔
        (name, info) ∈ st.servers ∧ ¬(now - info.lastHeartbeat > HEARTBEAT_TIMEOUT)) ∧
      ((name, info) ∈ st.servers → (name, info.rank) ∈ handle_list_request st) ∧
      ((∀ i, (name, i) ∈ st.servers → now - i.lastHeartbeat > HEARTBEAT_TIMEOUT) →
        ∀ rk, (name, rk) ∉ handle_list_request (cleanup_inactive_servers st now)) := by
  refine ⟨?_, ?_, ?_⟩
  · simp [cleanup_inactive_servers, List.mem_filter]
  · intro h
    exact List.mem_map.mpr ⟨(name, info), h, rfl⟩
  · intro hstale rk hmem
    obtain ⟨p, hp, hpe⟩ := List.mem_map.mp hmem
    obtain ⟨hpmem, hfresh⟩ := List.mem_filter.mp hp
    have he1 : p.1 = name := congrArg Prod.fst hpe
    have hs : now - p.2.lastHeartbeat > HEARTBEAT_TIMEOUT := by
      apply hstale p.2
      have hpp : (p.1, p.2) ∈ st.servers := by simpa using hpmem
      rwa [he1] at hpp
    simp at hfresh
    omega

/-- Witness for `cleanup_eviction_spec`: a stale and a fresh server at
`now = 100`. -/
theorem cleanup_eviction_witness :
    (("s1", (⟨1, 0⟩ : SInfo)) ∈
        (cleanup_inactive_servers ⟨[("s1", ⟨1, 0⟩), ("s2", ⟨2, 90⟩)], 3⟩ 100).servers ↔
        ("s1", (⟨1, 0⟩ : SInfo)) ∈ [("s1", (⟨1, 0⟩ : SInfo)), ("s2", ⟨2, 90⟩)] ∧
          ¬((100 : Int) - (0 : Int) > HEARTBEAT_TIMEOUT)) ∧
      (("s2", (⟨2, 90⟩ : SInfo)) ∈
          (cleanup_inactive_servers ⟨[("s1", ⟨1, 0⟩), ("s2", ⟨2, 90⟩)], 3⟩ 100).servers) := by
  constructor
  · exact (cleanup_eviction_spec ⟨[("s1", ⟨1, 0⟩), ("s2", ⟨2, 90⟩)], 3⟩ 100 "s1" ⟨1, 0⟩).1
  · exact ((cleanup_eviction_spec ⟨[("s1", ⟨1, 0⟩), ("s2", ⟨2, 90⟩)], 3⟩ 100 "s2" ⟨2, 90⟩).1).mpr
      (by constructor
          · simp
          · decide)

/-! ## Theorems: registry rank uniqueness (C5) -/

theorem findServer_some_mem (servers : List (String × SInfo)) (u : String) (i : SInfo)
    (h : findServer servers u = some i) : (u, i) ∈ servers := by
  induction servers with
  | nil => simp [findServer] at h
  | cons p rest ih =>
    obtain ⟨n, j⟩ := p
    by_cases hn : n = u
    · subst hn
      simp [findServer] at h
      simp [h]
    · simp [findServer, hn] at h
      exact List.mem_cons_of_mem _ (ih h)

theorem mem_updateHeartbeat (servers : List (String × SInfo)) (u : String) (n : Int)
    {p : String × SInfo} (h : p ∈ updateHeartbeat servers u n) :
    ∃ q ∈ servers, p.1 = q.1 ∧ p.2.rank = q.2.rank := by
  obtain ⟨q, hq, he⟩ := List.mem_map.mp h
  refine ⟨q, hq, ?_⟩
  split at he <;> rw [← he]
  · exact ⟨rfl, rfl⟩
  · exact ⟨rfl, rfl⟩

theorem updateHeartbeat_mem_rev (servers : List (String × SInfo)) (u : String) (n : Int)
    {name : String} {i : SInfo} (h : (name, i) ∈ servers) :
    ∃ j, (name, j) ∈ updateHeartbeat servers u n ∧ j.rank = i.rank := by
  by_cases hnu : name = u
  · exact ⟨⟨i.rank, n⟩, List.mem_map.mpr ⟨(name, i), h, by simp [hnu]⟩, rfl⟩
  · exact ⟨i, List.mem_map.mpr ⟨(name, i), h, by simp [hnu]⟩, rfl⟩

theorem goodState_updateHB (st : RegState) (u : String) (n : Int) (h : GoodState st) :
    GoodState ⟨updateHeartbeat st.servers u n, st.nextRank⟩ := by
  obtain ⟨h1, h2, h3⟩ := h
  refine ⟨h1, ?_, ?_⟩
  · intro p hp
    obtain ⟨q, hq, _, e2⟩ := mem_updateHeartbeat _ _ _ hp
    rw [e2]
    exact h2 q hq
  · intro p hp q hq he
    obtain ⟨p₀, hp₀, ep1, ep2⟩ := mem_updateHeartbeat _ _ _ hp
    obtain ⟨q₀, hq₀, eq1, eq2⟩ := mem_updateHeartbeat _ _ _ hq
    rw [ep1, eq1]
    exact h3 p₀ hp₀ q₀ hq₀ (by rw [← ep2, ← eq2, he])

theorem goodState_register (st : RegState) (u : String) (n : Int) (h : GoodState st) :
    GoodState ⟨st.servers ++ [(u, ⟨st.nextRank, n⟩)], st.nextRank + 1⟩ := by
  obtain ⟨h1, h2, h3⟩ := h
  refine ⟨?_, ?_, ?_⟩
  · show 1 ≤ st.nextRank + 1
    omega
  · intro p hp
    rcases List.mem_append.mp hp with hp | hp
    · have hb := h2 p hp
      refine ⟨hb.1, ?_⟩
      show p.2.rank < st.nextRank + 1
      omega
    · simp at hp
      subst hp
      show 1 ≤ st.nextRank ∧ st.nextRank < st.nextRank + 1
      omega
  · intro p hp q hq he
    rcases List.mem_append.mp hp with hp | hp <;> rcases List.mem_append.mp hq with hq | hq
    · exact h3 p hp q hq he
    · have hb := h2 p hp
      simp only [List.mem_singleton] at hq
      subst hq
      have he' : p.2.rank = st.nextRank := he
      omega
    · have hb := h2 q hq
      simp only [List.mem_singleton] at hp
      subst hp
      have he' : st.nextRank = q.2.rank := he
      omega
    · simp only [List.mem_singleton] at hp hq
      subst hp
      subst hq
      rfl

theorem goodState_cleanup (st : RegState) (now : Int) (h : GoodState st) :
    GoodState (cleanup_inactive_servers st now) := by
  obtain ⟨h1, h2, h3⟩ := h
  exact ⟨h1, fun p hp => h2 p (List.mem_filter.mp hp).1,
    fun p hp q hq => h3 p (List.mem_filter.mp hp).1 q (List.mem_filter.mp hq).1⟩

theorem range'_glue (a b c : Nat) (h1 : a ≤ b) (h2 : b ≤ c) :
    List.range' a (b - a) ++ List.range' b (c - b) = List.range' a (c - a) := by
  have h := List.range'_append a (b - a) (c - b) 1
  rw [show a + 1 * (b - a) = b by omega] at h
  rw [show c - b + (b - a) = c - a by omega] at h
  exact h

/-- One step of the `runRegistry` induction: if the head event takes the
registry from `st` to `st'`, emitting `asgHere`/`allocHere`, and the
listed local facts hold, the invariant propagates from the tail run. -/
theorem runInv_step (st st' : RegState) (e : RegEvent) (rest : List RegEvent)
    (asgHere : List (String × Nat)) (allocHere : List Nat)
    (hshape : runRegistry st (e :: rest) =
      ((runRegistry st' rest).1, asgHere ++ (runRegistry st' rest).2.1,
        allocHere ++ (runRegistry st' rest).2.2))
    (hst : GoodState st)
    (hmono : st.nextRank ≤ st'.nextRank)
    (halloc : allocHere = List.range' st.nextRank (st'.nextRank - st.nextRank))
    (hdesc : ∀ name j, (name, j) ∈ st'.servers → j.rank < st.nextRank →
      ∃ j₀, (name, j₀) ∈ st.servers ∧ j₀.rank = j.rank)
    (hhb : ∀ p ∈ asgHere, 1 ≤ p.2 ∧ p.2 < st'.nextRank)
    (hhd : ∀ p ∈ asgHere, p.2 < st.nextRank → ∃ i, (p.1, i) ∈ st.servers ∧ i.rank = p.2)
    (hhr : ∀ name i, (name, i) ∈ st.servers → ∀ p ∈ asgHere, p.2 = i.rank → p.1 = name)
    (hhro : ∀ p ∈ asgHere, ∃ j, (p.1, j) ∈ st'.servers ∧ j.rank = p.2)
    (hhinj : AsgInj asgHere)
    (ih : RunInv st' rest) :
    RunInv st (e :: rest) := by
  obtain ⟨ih1, ih2, ih3, ih4, ih5, ih6, ih7⟩ := ih
  unfold RunInv
  rw [hshape]
  refine ⟨ih1, le_trans hmono ih2, ?_, ?_, ?_, ?_, ?_⟩
  · show allocHere ++ (runRegistry st' rest).2.2 = _
    rw [halloc, ih3]
    exact range'_glue st.nextRank st'.nextRank (runRegistry st' rest).1.nextRank hmono ih2
  · intro p hp
    rcases List.mem_append.mp hp with hp | hp
    · have := hhb p hp
      exact ⟨this.1, lt_of_lt_of_le this.2 ih2⟩
    · exact ih4 p hp
  · intro p hp hlt
    rcases List.mem_append.mp hp with hp | hp
    · exact hhd p hp hlt
    · obtain ⟨i, hi, hir⟩ := ih5 p hp (lt_of_lt_of_le hlt hmono)
      obtain ⟨j₀, hj₀, hj₀r⟩ := hdesc p.1 i hi (by omega)
      exact ⟨j₀, hj₀, by omega⟩
  · intro name i hni p hp hpe
    rcases List.mem_append.mp hp with hp | hp
    · exact hhr name i hni p hp hpe
    · have hib : 1 ≤ i.rank ∧ i.rank < st.nextRank := hst.2.1 (name, i) hni
      obtain ⟨j, hj, hjr⟩ := ih5 p hp (by
        show p.2 < st'.nextRank
        omega)
      obtain ⟨j₀, hj₀, hj₀r⟩ := hdesc p.1 j hj (by omega)
      exact hst.2.2 (p.1, j₀) hj₀ (name, i) hni (by show j₀.rank = i.rank; omega)
  · intro p hp q hq hpq
    rcases List.mem_append.mp hp with hp | hp <;> rcases List.mem_append.mp hq with hq | hq
    · exact hhinj p hp q hq hpq
    · obtain ⟨j, hj, hjr⟩ := hhro p hp
      exact (ih6 p.1 j hj q hq (by omega)).symm
    · obtain ⟨j, hj, hjr⟩ := hhro q hq
      exact ih6 q.1 j hj p hp (by omega)
    · exact ih7 p hp q hq hpq

theorem runRegistry_cons_rank_empty (st : RegState) (rest : List RegEvent)
    (u : String) (n : Int) (hu : u = "") :
    runRegistry st (.rankReq u n :: rest) =
      ((runRegistry st rest).1, [] ++ (runRegistry st rest).2.1,
        [] ++ (runRegistry st rest).2.2) := by
  subst hu
  simp [runRegistry, handle_rank_request]

theorem runRegistry_cons_rank_known (st : RegState) (rest : List RegEvent)
    (u : String) (n : Int) (info : SInfo) (hu : ¬u = "")
    (hf : findServer st.servers u = some info) :
    runRegistry st (.rankReq u n :: rest) =
      ((runRegistry ⟨updateHeartbeat st.servers u n, st.nextRank⟩ rest).1,
        [(u, info.rank)] ++
          (runRegistry ⟨updateHeartbeat st.servers u n, st.nextRank⟩ rest).2.1,
        [] ++ (runRegistry ⟨updateHeartbeat st.servers u n, st.nextRank⟩ rest).2.2) := by
  simp [runRegistry, handle_rank_request, hu, hf]

theorem runRegistry_cons_rank_new (st : RegState) (rest : List RegEvent)
    (u : String) (n : Int) (hu : ¬u = "")
    (hf : findServer st.servers u = none) :
    runRegistry st (.rankReq u n :: rest) =
      ((runRegistry ⟨st.servers ++ [(u, ⟨st.nextRank, n⟩)], st.nextRank + 1⟩ rest).1,
        [(u, st.nextRank)] ++
          (runRegistry ⟨st.servers ++ [(u, ⟨st.nextRank, n⟩)], st.nextRank + 1⟩ rest).2.1,
        [st.nextRank] ++
          (runRegistry ⟨st.servers ++ [(u, ⟨st.nextRank, n⟩)], st.nextRank + 1⟩ rest).2.2) := by
  simp [runRegistry, handle_rank_request, hu, hf]

theorem runRegistry_cons_hb_empty (st : RegState) (rest : List RegEvent)
    (u : String) (n : Int) (hu : u = "") :
    runRegistry st (.heartbeatReq u n :: rest) =
      ((runRegistry st rest).1, [] ++ (runRegistry st rest).2.1,
        [] ++ (runRegistry st rest).2.2) := by
  subst hu
  simp [runRegistry, handle_heartbeat]

theorem runRegistry_cons_hb_known (st : RegState) (rest : List RegEvent)
    (u : String) (n : Int) (info : SInfo) (hu : ¬u = "")
    (hf : findServer st.servers u = some info) :
    runRegistry st (.heartbeatReq u n :: rest) =
      ((runRegistry ⟨updateHeartbeat st.servers u n, st.nextRank⟩ rest).1,
        [] ++ (runRegistry ⟨updateHeartbeat st.servers u n, st.nextRank⟩ rest).2.1,
        [] ++ (runRegistry ⟨updateHeartbeat st.servers u n, st.nextRank⟩ rest).2.2) := by
  simp [runRegistry, handle_heartbeat, hu, hf]

theorem runRegistry_cons_hb_new (st : RegState) (rest : List RegEvent)
    (u : String) (n : Int) (hu : ¬u = "")
    (hf : findServer st.servers u = none) :
    runRegistry st (.heartbeatReq u n :: rest) =
      ((runRegistry ⟨st.servers ++ [(u, ⟨st.nextRank, n⟩)], st.nextRank + 1⟩ rest).1,
        [(u, st.nextRank)] ++
          (runRegistry ⟨st.servers ++ [(u, ⟨st.nextRank, n⟩)], st.nextRank + 1⟩ rest).2.1,
        [st.nextRank] ++
          (runRegistry ⟨st.servers ++ [(u, ⟨st.nextRank, n⟩)], st.nextRank + 1⟩ rest).2.2) := by
  simp [runRegistry, handle_heartbeat, hu, hf]

theorem runRegistry_cons_sweep (st : RegState) (rest : List RegEvent) (n : Int) :
    runRegistry st (.sweep n :: rest) =
      ((runRegistry (cleanup_inactive_servers st n) rest).1,
        [] ++ (runRegistry (cleanup_inactive_servers st n) rest).2.1,
        [] ++ (runRegistry (cleanup_inactive_servers st n) rest).2.2) := by
  simp [runRegistry, cleanup_inactive_servers]

theorem runRegistry_invariant (events : List RegEvent) :
    ∀ st : RegState, GoodState st → RunInv st events := by
  induction events with
  | nil =>
    intro st hst
    refine ⟨hst, le_refl _, ?_, ?_, ?_, ?_, ?_⟩
    · show ([] : List Nat) = List.range' st.nextRank (st.nextRank - st.nextRank)
      simp
    · intro p hp
      exact (List.not_mem_nil p hp).elim
    · intro p hp
      exact (List.not_mem_nil p hp).elim
    · intro name i _ p hp
      exact (List.not_mem_nil p hp).elim
    · intro p hp
      exact (List.not_mem_nil p hp).elim
  | cons e rest ih =>
    intro st hst
    cases e with
    | rankReq u n =>
      by_cases hu : u = ""
      · refine runInv_step st st _ rest [] []
          (runRegistry_cons_rank_empty st rest u n hu) hst (le_refl _) (by simp)
          (fun name j hj _ => ⟨j, hj, rfl⟩) ?_ ?_ ?_ ?_ ?_ (ih st hst)
        · intro p hp
          exact (List.not_mem_nil p hp).elim
        · intro p hp
          exact (List.not_mem_nil p hp).elim
        · intro name i _ p hp
          exact (List.not_mem_nil p hp).elim
        · intro p hp
          exact (List.not_mem_nil p hp).elim
        · intro p hp
          exact (List.not_mem_nil p hp).elim
      · cases hf : findServer st.servers u with
        | some info =>
          refine runInv_step st ⟨updateHeartbeat st.servers u n, st.nextRank⟩ _ rest
            [(u, info.rank)] []
            (runRegistry_cons_rank_known st rest u n info hu hf) hst (le_refl _) (by simp)
            ?_ ?_ ?_ ?_ ?_ ?_ (ih _ (goodState_updateHB st u n hst))
          · intro name j hj _
            obtain ⟨q, hq, e1, e2⟩ := mem_updateHeartbeat st.servers u n hj
            refine ⟨q.2, ?_, e2.symm⟩
            have e1' : name = q.1 := e1
            rw [e1']
            simpa using hq
          · intro p hp
            simp only [List.mem_singleton] at hp
            subst hp
            exact hst.2.1 (u, info) (findServer_some_mem _ _ _ hf)
          · intro p hp _
            simp only [List.mem_singleton] at hp
            subst hp
            exact ⟨info, findServer_some_mem _ _ _ hf, rfl⟩
          · intro name i hni p hp hpe
            simp only [List.mem_singleton] at hp
            subst hp
            exact hst.2.2 (u, info) (findServer_some_mem _ _ _ hf) (name, i) hni hpe
          · intro p hp
            simp only [List.mem_singleton] at hp
            subst hp
            exact updateHeartbeat_mem_rev st.servers u n (findServer_some_mem _ _ _ hf)
          · intro p hp q hq _
            simp only [List.mem_singleton] at hp hq
            subst hp
            subst hq
            rfl
        | none =>
          refine runInv_step st ⟨st.servers ++ [(u, ⟨st.nextRank, n⟩)], st.nextRank + 1⟩ _ rest
            [(u, st.nextRank)] [st.nextRank]
            (runRegistry_cons_rank_new st rest u n hu hf) hst (Nat.le_succ _)
            ?_ ?_ ?_ ?_ ?_ ?_ ?_ (ih _ (goodState_register st u n hst))
          · rw [show st.nextRank + 1 - st.nextRank = 1 by omega]
            simp
          · intro name j hj hlt
            rcases List.mem_append.mp hj with hj | hj
            · exact ⟨j, hj, rfl⟩
            · simp only [List.mem_singleton, Prod.mk.injEq] at hj
              have hr : j.rank = st.nextRank := by rw [hj.2]
              omega
          · intro p hp
            simp only [List.mem_singleton] at hp
            subst hp
            exact ⟨hst.1, Nat.lt_succ_self _⟩
          · intro p hp hlt
            simp only [List.mem_singleton] at hp
            subst hp
            have hlt' : st.nextRank < st.nextRank := hlt
            omega
          · intro name i hni p hp hpe
            simp only [List.mem_singleton] at hp
            subst hp
            have hib : 1 ≤ i.rank ∧ i.rank < st.nextRank := hst.2.1 (name, i) hni
            have hpe' : st.nextRank = i.rank := hpe
            have : False := by omega
            exact this.elim
          · intro p hp
            simp only [List.mem_singleton] at hp
            subst hp
            exact ⟨⟨st.nextRank, n⟩, List.mem_append_right _ (by simp), rfl⟩
          · intro p hp q hq _
            simp only [List.mem_singleton] at hp hq
            subst hp
            subst hq
            rfl
    | heartbeatReq u n =>
      by_cases hu : u = ""
      · refine runInv_step st st _ rest [] []
          (runRegistry_cons_hb_empty st rest u n hu) hst (le_refl _) (by simp)
          (fun name j hj _ => ⟨j, hj, rfl⟩) ?_ ?_ ?_ ?_ ?_ (ih st hst)
        · intro p hp
          exact (List.not_mem_nil p hp).elim
        · intro p hp
          exact (List.not_mem_nil p hp).elim
        · intro name i _ p hp
          exact (List.not_mem_nil p hp).elim
        · intro p hp
          exact (List.not_mem_nil p hp).elim
        · intro p hp
          exact (List.not_mem_nil p hp).elim
      · cases hf : findServer st.servers u with
        | some info =>
          refine runInv_step st ⟨updateHeartbeat st.servers u n, st.nextRank⟩ _ rest [] []
            (runRegistry_cons_hb_known st rest u n info hu hf) hst (le_refl _) (by simp)
            ?_ ?_ ?_ ?_ ?_ ?_ (ih _ (goodState_updateHB st u n hst))
          · intro name j hj _
            obtain ⟨q, hq, e1, e2⟩ := mem_updateHeartbeat st.servers u n hj
            refine ⟨q.2, ?_, e2.symm⟩
            have e1' : name = q.1 := e1
            rw [e1']
            simpa using hq
          · intro p hp
            exact (List.not_mem_nil p hp).elim
          · intro p hp
            exact (List.not_mem_nil p hp).elim
          · intro name i _ p hp
            exact (List.not_mem_nil p hp).elim
          · intro p hp
            exact (List.not_mem_nil p hp).elim
          · intro p hp
            exact (List.not_mem_nil p hp).elim
        | none =>
          refine runInv_step st ⟨st.servers ++ [(u, ⟨st.nextRank, n⟩)], st.nextRank + 1⟩ _ rest
            [(u, st.nextRank)] [st.nextRank]
            (runRegistry_cons_hb_new st rest u n hu hf) hst (Nat.le_succ _)
            ?_ ?_ ?_ ?_ ?_ ?_ ?_ (ih _ (goodState_register st u n hst))
          · rw [show st.nextRank + 1 - st.nextRank = 1 by omega]
            simp
          · intro name j hj hlt
            rcases List.mem_append.mp hj with hj | hj
            · exact ⟨j, hj, rfl⟩
            · simp only [List.mem_singleton, Prod.mk.injEq] at hj
              have hr : j.rank = st.nextRank := by rw [hj.2]
              omega
          · intro p hp
            simp only [List.mem_singleton] at hp
            subst hp
            exact ⟨hst.1, Nat.lt_succ_self _⟩
          · intro p hp hlt
            simp only [List.mem_singleton] at hp
            subst hp
            have hlt' : st.nextRank < st.nextRank := hlt
            omega
          · intro name i hni p hp hpe
            simp only [List.mem_singleton] at hp
            subst hp
            have hib : 1 ≤ i.rank ∧ i.rank < st.nextRank := hst.2.1 (name, i) hni
            have hpe' : st.nextRank = i.rank := hpe
            have : False := by omega
            exact this.elim
          · intro p hp
            simp only [List.mem_singleton] at hp
            subst hp
            exact ⟨⟨st.nextRank, n⟩, List.mem_append_right _ (by simp), rfl⟩
          · intro p hp q hq _
            simp only [List.mem_singleton] at hp hq
            subst hp
            subst hq
            rfl
    | sweep n =>
      refine runInv_step st (cleanup_inactive_servers st n) _ rest [] []
        (runRegistry_cons_sweep st rest n) hst (le_refl _)
        (by simp [cleanup_inactive_servers])
        ?_ ?_ ?_ ?_ ?_ ?_ (ih _ (goodState_cleanup st n hst))
      · intro name j hj _
        exact ⟨j, (List.mem_filter.mp hj).1, rfl⟩
      · intro p hp
        exact (List.not_mem_nil p hp).elim
      · intro p hp
        exact (List.not_mem_nil p hp).elim
      · intro name i _ p hp
        exact (List.not_mem_nil p hp).elim
      · intro p hp
        exact (List.not_mem_nil p hp).elim
      · intro p hp
        exact (List.not_mem_nil p hp).elim

/-- C5: over any sequence of rank/heartbeat requests (and cleanup sweeps)
processed from the empty roster, the registry never associates the same
rank with two distinct server names, and the freshly allocated ranks form
the strictly increasing sequence 1, 2, 3, … in allocation order. -/
theorem registry_rank_uniqueness (events : List RegEvent) :
    AsgInj (runRegistry regInit events).2.1 ∧
      (runRegistry regInit events).2.2 =
        List.range' 1 (runRegistry regInit events).2.2.length := by
  have hg : GoodState regInit := by
    refine ⟨le_refl 1, ?_, ?_⟩
    · intro p hp
      exact (List.not_mem_nil p hp).elim
    · intro p hp
      exact (List.not_mem_nil p hp).elim
  obtain ⟨_, _, h3, _, _, _, h7⟩ := runRegistry_invariant events regInit hg
  refine ⟨h7, ?_⟩
  rw [h3]
  rw [List.length_range']
  rfl

/-- Witness for `registry_rank_uniqueness` on a concrete request trace. -/
theorem registry_rank_uniqueness_witness :
    AsgInj (runRegistry regInit
        [.rankReq "a" 0, .heartbeatReq "b" 0, .sweep 100, .rankReq "a" 200]).2.1 ∧
      (runRegistry regInit
          [.rankReq "a" 0, .heartbeatReq "b" 0, .sweep 100, .rankReq "a" 200]).2.2 =
        List.range' 1 (runRegistry regInit
          [.rankReq "a" 0, .heartbeatReq "b" 0, .sweep 100, .rankReq "a" 200]).2.2.length :=
  registry_rank_uniqueness [.rankReq "a" 0, .heartbeatReq "b" 0, .sweep 100, .rankReq "a" 200]

/-! ## Theorems: merge machinery (C1, C9) -/

theorem mem_keysOf {α κ : Type} (key : α → Option κ) (l : List α) (k : κ) :
    k ∈ keysOf key l ↔ ∃ a ∈ l, key a = some k := by
  simp [keysOf, List.mem_filterMap]

theorem addNewRecords_cons_none {α κ : Type} [DecidableEq κ] {key : α → Option κ}
    {a : α} (ids : List κ) (rest : List α) (h : key a = none) :
    addNewRecords key ids (a :: rest) = addNewRecords key ids rest := by
  simp [addNewRecords, h]

theorem addNewRecords_cons_mem {α κ : Type} [DecidableEq κ] {key : α → Option κ}
    {a : α} {k : κ} {ids : List κ} (rest : List α) (h : key a = some k) (hin : k ∈ ids) :
    addNewRecords key ids (a :: rest) = addNewRecords key ids rest := by
  simp [addNewRecords, h, hin]

theorem addNewRecords_cons_fresh {α κ : Type} [DecidableEq κ] {key : α → Option κ}
    {a : α} {k : κ} {ids : List κ} (rest : List α) (h : key a = some k) (hin : k ∉ ids) :
    addNewRecords key ids (a :: rest) = a :: addNewRecords key (k :: ids) rest := by
  simp [addNewRecords, h, hin]

theorem mem_addNewRecords_imp {α κ : Type} [DecidableEq κ] (key : α → Option κ) :
    ∀ (new : List α) (ids : List κ) {r : α}, r ∈ addNewRecords key ids new →
      r ∈ new ∧ ∃ k, key r = some k ∧ k ∉ ids := by
  intro new
  induction new with
  | nil =>
    intro ids r h
    simp [addNewRecords] at h
  | cons a rest ih =>
    intro ids r h
    cases hk : key a with
    | none =>
      rw [addNewRecords_cons_none ids rest hk] at h
      obtain ⟨h1, h2⟩ := ih ids h
      exact ⟨List.mem_cons_of_mem _ h1, h2⟩
    | some k =>
      by_cases hin : k ∈ ids
      · rw [addNewRecords_cons_mem rest hk hin] at h
        obtain ⟨h1, h2⟩ := ih ids h
        exact ⟨List.mem_cons_of_mem _ h1, h2⟩
      · rw [addNewRecords_cons_fresh rest hk hin] at h
        rcases List.mem_cons.mp h with he | h
        · subst he
          exact ⟨List.mem_cons_self _ _, k, hk, hin⟩
        · obtain ⟨h1, k', hk', hk'n⟩ := ih (k :: ids) h
          exact ⟨List.mem_cons_of_mem _ h1, k', hk',
            fun hc => hk'n (List.mem_cons_of_mem _ hc)⟩

theorem keys_addNewRecords_complete {α κ : Type} [DecidableEq κ] (key : α → Option κ) :
    ∀ (new : List α) (ids : List κ) (k : κ), k ∈ keysOf key new → k ∉ ids →
      k ∈ keysOf key (addNewRecords key ids new) := by
  intro new
  induction new with
  | nil =>
    intro ids k hk _
    simp [keysOf] at hk
  | cons a rest ih =>
    intro ids k hk hkid
    cases hka : key a with
    | none =>
      rw [addNewRecords_cons_none ids rest hka]
      rw [keysOf, List.filterMap_cons, hka] at hk
      exact ih ids k hk hkid
    | some k₀ =>
      rw [keysOf, List.filterMap_cons, hka] at hk
      rcases List.mem_cons.mp hk with he | hk
      · subst he
        rw [addNewRecords_cons_fresh rest hka hkid]
        rw [keysOf, List.filterMap_cons, hka]
        exact List.mem_cons_self _ _
      · by_cases hin : k₀ ∈ ids
        · rw [addNewRecords_cons_mem rest hka hin]
          exact ih ids k hk hkid
        · rw [addNewRecords_cons_fresh rest hka hin]
          rw [keysOf, List.filterMap_cons, hka]
          by_cases hkk : k = k₀
          · subst hkk
            exact List.mem_cons_self _ _
          · refine List.mem_cons_of_mem _ (ih (k₀ :: ids) k hk ?_)
            intro hc
            rcases List.mem_cons.mp hc with hc | hc
            · exact hkk hc
            · exact hkid hc

theorem keys_addNewRecords {α κ : Type} [DecidableEq κ] (key : α → Option κ)
    (new : List α) (ids : List κ) (k : κ) :
    k ∈ keysOf key (addNewRecords key ids new) ↔ k ∈ keysOf key new ∧ k ∉ ids := by
  constructor
  · intro h
    obtain ⟨r, hr, hrk⟩ := (mem_keysOf key _ k).mp h
    obtain ⟨h1, k', hk', hk'n⟩ := mem_addNewRecords_imp key new ids hr
    have hke : k' = k := by
      rw [hrk] at hk'
      exact (Option.some.inj hk').symm
    subst hke
    exact ⟨(mem_keysOf key new k').mpr ⟨r, h1, hrk⟩, hk'n⟩
  · intro ⟨h1, h2⟩
    exact keys_addNewRecords_complete key new ids k h1 h2

theorem addNewRecords_eq_nil {α κ : Type} [DecidableEq κ] (key : α → Option κ)
    (ids : List κ) (new : List α)
    (h : ∀ a ∈ new, ∀ k, key a = some k → k ∈ ids) :
    addNewRecords key ids new = [] := by
  induction new with
  | nil => rfl
  | cons a rest ih =>
    cases hka : key a with
    | none =>
      rw [addNewRecords_cons_none ids rest hka]
      exact ih fun b hb => h b (List.mem_cons_of_mem _ hb)
    | some k =>
      rw [addNewRecords_cons_mem rest hka (h a (List.mem_cons_self _ _) k hka)]
      exact ih fun b hb => h b (List.mem_cons_of_mem _ hb)

theorem addNewRecords_pairwise_keys {α κ : Type} [DecidableEq κ] (key : α → Option κ) :
    ∀ (new : List α) (ids : List κ),
      (addNewRecords key ids new).Pairwise
        (fun a b => ∀ k, key a = some k → key b ≠ some k) := by
  intro new
  induction new with
  | nil =>
    intro ids
    rw [addNewRecords]
    exact List.Pairwise.nil
  | cons a rest ih =>
    intro ids
    cases hka : key a with
    | none =>
      rw [addNewRecords_cons_none ids rest hka]
      exact ih ids
    | some k =>
      by_cases hin : k ∈ ids
      · rw [addNewRecords_cons_mem rest hka hin]
        exact ih ids
      · rw [addNewRecords_cons_fresh rest hka hin]
        refine List.Pairwise.cons ?_ (ih (k :: ids))
        intro b hb k' hak'
        have hkk' : k' = k := by
          rw [hka] at hak'
          exact (Option.some.inj hak').symm
        subst hkk'
        obtain ⟨_, kb, hkb, hkbn⟩ := mem_addNewRecords_imp key rest (k' :: ids) hb
        intro hc
        rw [hkb] at hc
        have hbe : kb = k' := Option.some.inj hc
        subst hbe
        exact hkbn (List.mem_cons_self _ _)

theorem addNewRecords_nodup {α κ : Type} [DecidableEq κ] (key : α → Option κ)
    (ids : List κ) (new : List α) : (addNewRecords key ids new).Nodup := by
  refine List.Pairwise.imp_of_mem ?_ (addNewRecords_pairwise_keys key new ids)
  intro a b ha _ hr hab
  obtain ⟨_, k, hk, _⟩ := mem_addNewRecords_imp key new ids ha
  subst hab
  exact hr k hk hk

theorem addNewRecords_congr {α κ : Type} [DecidableEq κ] (key : α → Option κ) :
    ∀ (new : List α) (ids₁ ids₂ : List κ), (∀ k, k ∈ ids₁ ↔ k ∈ ids₂) →
      addNewRecords key ids₁ new = addNewRecords key ids₂ new := by
  intro new
  induction new with
  | nil =>
    intro ids₁ ids₂ _
    rfl
  | cons a rest ih =>
    intro ids₁ ids₂ h
    cases hka : key a with
    | none =>
      rw [addNewRecords_cons_none ids₁ rest hka, addNewRecords_cons_none ids₂ rest hka]
      exact ih ids₁ ids₂ h
    | some k =>
      by_cases hin : k ∈ ids₁
      · rw [addNewRecords_cons_mem rest hka hin,
          addNewRecords_cons_mem rest hka ((h k).mp hin)]
        exact ih ids₁ ids₂ h
      · rw [addNewRecords_cons_fresh rest hka hin,
          addNewRecords_cons_fresh rest hka (fun hc => hin ((h k).mpr hc))]
        rw [ih (k :: ids₁) (k :: ids₂) (by
          intro k'
          simp only [List.mem_cons]
          rw [h k'])]

theorem mem_addNewRecords_inj {α κ : Type} [DecidableEq κ] (key : α → Option κ) :
    ∀ (new : List α) (ids : List κ),
      (∀ a ∈ new, ∀ b ∈ new, ∀ k, key a = some k → key b = some k → a = b) →
      ∀ r : α, (r ∈ addNewRecords key ids new ↔
        r ∈ new ∧ ∃ k, key r = some k ∧ k ∉ ids) := by
  intro new
  induction new with
  | nil =>
    intro ids _ r
    simp [addNewRecords]
  | cons a rest ih =>
    intro ids hinj r
    have hinj' : ∀ a' ∈ rest, ∀ b ∈ rest, ∀ k, key a' = some k → key b = some k → a' = b :=
      fun a' ha' b hb k h1 h2 =>
        hinj a' (List.mem_cons_of_mem _ ha') b (List.mem_cons_of_mem _ hb) k h1 h2
    cases hka : key a with
    | none =>
      rw [addNewRecords_cons_none ids rest hka]
      rw [ih ids hinj' r]
      constructor
      · rintro ⟨h1, hx⟩
        exact ⟨List.mem_cons_of_mem _ h1, hx⟩
      · rintro ⟨h1, k, hk1, hk2⟩
        rcases List.mem_cons.mp h1 with he | h1
        · subst he
          rw [hka] at hk1
          cases hk1
        · exact ⟨h1, k, hk1, hk2⟩
    | some k₀ =>
      by_cases hin : k₀ ∈ ids
      · rw [addNewRecords_cons_mem rest hka hin]
        rw [ih ids hinj' r]
        constructor
        · rintro ⟨h1, hx⟩
          exact ⟨List.mem_cons_of_mem _ h1, hx⟩
        · rintro ⟨h1, k, hk1, hk2⟩
          rcases List.mem_cons.mp h1 with he | h1
          · subst he
            rw [hka] at hk1
            have hke : k₀ = k := Option.some.inj hk1
            subst hke
            exact absurd hin hk2
          · exact ⟨h1, k, hk1, hk2⟩
      · rw [addNewRecords_cons_fresh rest hka hin]
        rw [List.mem_cons, ih (k₀ :: ids) hinj' r]
        constructor
        · rintro (he | ⟨h1, k, hk1, hk2⟩)
          · subst he
            exact ⟨List.mem_cons_self _ _, k₀, hka, hin⟩
          · exact ⟨List.mem_cons_of_mem _ h1, k, hk1,
              fun hc => hk2 (List.mem_cons_of_mem _ hc)⟩
        · rintro ⟨h1, k, hk1, hk2⟩
          rcases List.mem_cons.mp h1 with he | h1
          · exact Or.inl he
          · by_cases hkk : k = k₀
            · subst hkk
              exact Or.inl (hinj a (List.mem_cons_self _ _) r
                (List.mem_cons_of_mem _ h1) k hka hk1).symm
            · refine Or.inr ⟨h1, k, hk1, ?_⟩
              intro hc
              rcases List.mem_cons.mp hc with hc | hc
              · exact hkk hc
              · exact hk2 hc

theorem mem_two_phase {α κ : Type} [DecidableEq κ] (key : α → Option κ)
    (ids : List κ) (X Y : List α)
    (hinj : ∀ a ∈ X ++ Y, ∀ b ∈ X ++ Y, ∀ k, key a = some k → key b = some k → a = b)
    (r : α) :
    r ∈ addNewRecords key ids X ++
        addNewRecords key (ids ++ keysOf key (addNewRecords key ids X)) Y ↔
      r ∈ X ++ Y ∧ ∃ k, key r = some k ∧ k ∉ ids := by
  have hinjX : ∀ a ∈ X, ∀ b ∈ X, ∀ k, key a = some k → key b = some k → a = b :=
    fun a ha b hb k h1 h2 =>
      hinj a (List.mem_append_left _ ha) b (List.mem_append_left _ hb) k h1 h2
  have hinjY : ∀ a ∈ Y, ∀ b ∈ Y, ∀ k, key a = some k → key b = some k → a = b :=
    fun a ha b hb k h1 h2 =>
      hinj a (List.mem_append_right _ ha) b (List.mem_append_right _ hb) k h1 h2
  constructor
  · intro h
    rcases List.mem_append.mp h with h | h
    · obtain ⟨h1, k, hk1, hk2⟩ := (mem_addNewRecords_inj key X ids hinjX r).mp h
      exact ⟨List.mem_append_left _ h1, k, hk1, hk2⟩
    · obtain ⟨h1, k, hk1, hk2⟩ := (mem_addNewRecords_inj key Y _ hinjY r).mp h
      exact ⟨List.mem_append_right _ h1, k, hk1,
        fun hc => hk2 (List.mem_append_left _ hc)⟩
  · rintro ⟨h1, k, hk1, hk2⟩
    rcases List.mem_append.mp h1 with h1 | h1
    · exact List.mem_append_left _
        ((mem_addNewRecords_inj key X ids hinjX r).mpr ⟨h1, k, hk1, hk2⟩)
    · by_cases hkX : k ∈ keysOf key X
      · obtain ⟨a, ha, hak⟩ := (mem_keysOf key X k).mp hkX
        have hae : a = r := hinj a (List.mem_append_left _ ha) r
          (List.mem_append_right _ h1) k hak hk1
        subst hae
        exact List.mem_append_left _
          ((mem_addNewRecords_inj key X ids hinjX a).mpr ⟨ha, k, hak, hk2⟩)
      · refine List.mem_append_right _
          ((mem_addNewRecords_inj key Y _ hinjY r).mpr ⟨h1, k, hk1, ?_⟩)
        intro hc
        rcases List.mem_append.mp hc with hc | hc
        · exact hk2 hc
        · exact hkX ((keys_addNewRecords key X ids k).mp hc).1

theorem nodup_two_phase {α κ : Type} [DecidableEq κ] (key : α → Option κ)
    (ids : List κ) (X Y : List α) :
    (addNewRecords key ids X ++
      addNewRecords key (ids ++ keysOf key (addNewRecords key ids X)) Y).Nodup := by
  rw [List.nodup_append]
  refine ⟨addNewRecords_nodup key ids X, addNewRecords_nodup key _ Y, ?_⟩
  intro a haX haY
  obtain ⟨_, k, hk, _⟩ := mem_addNewRecords_imp key X ids haX
  have hkX : k ∈ keysOf key (addNewRecords key ids X) :=
    (mem_keysOf key _ k).mpr ⟨a, haX, hk⟩
  obtain ⟨_, k', hk', hk'2⟩ := mem_addNewRecords_imp key Y _ haY
  have hke : k' = k := by
    rw [hk] at hk'
    exact (Option.some.inj hk').symm
  subst hke
  exact hk'2 (List.mem_append_right _ hkX)

theorem perm_two_phase {α κ : Type} [DecidableEq κ] (key : α → Option κ)
    (ids : List κ) (X Y : List α)
    (hinj : ∀ a ∈ X ++ Y, ∀ b ∈ X ++ Y, ∀ k, key a = some k → key b = some k → a = b) :
    (addNewRecords key ids X ++
        addNewRecords key (ids ++ keysOf key (addNewRecords key ids X)) Y).Perm
      (addNewRecords key ids Y ++
        addNewRecords key (ids ++ keysOf key (addNewRecords key ids Y)) X) := by
  have hswap : ∀ c : α, c ∈ Y ++ X ↔ c ∈ X ++ Y := by
    intro c
    rw [List.mem_append, List.mem_append, or_comm]
  have hinj' : ∀ a ∈ Y ++ X, ∀ b ∈ Y ++ X, ∀ k, key a = some k → key b = some k → a = b :=
    fun a ha b hb k h1 h2 => hinj a ((hswap a).mp ha) b ((hswap b).mp hb) k h1 h2
  refine (List.perm_ext_iff_of_nodup (nodup_two_phase key ids X Y)
    (nodup_two_phase key ids Y X)).mpr ?_
  intro r
  rw [mem_two_phase key ids X Y hinj r, mem_two_phase key ids Y X hinj' r]
  constructor
  · rintro ⟨h1, hx⟩
    exact ⟨(hswap r).mpr h1, hx⟩
  · rintro ⟨h1, hx⟩
    exact ⟨(hswap r).mp h1, hx⟩

theorem keysOf_append {α κ : Type} (key : α → Option κ) (l₁ l₂ : List α) :
    keysOf key (l₁ ++ l₂) = keysOf key l₁ ++ keysOf key l₂ := by
  simp [keysOf, List.filterMap_append]

theorem addNewRecords_idem_nil {α κ : Type} [DecidableEq κ] (key : α → Option κ)
    (S X : List α) :
    addNewRecords key (keysOf key (S ++ addNewRecords key (keysOf key S) X)) X = [] := by
  apply addNewRecords_eq_nil
  intro a ha k hk
  rw [keysOf_append]
  by_cases hkS : k ∈ keysOf key S
  · exact List.mem_append_left _ hkS
  · exact List.mem_append_right _ (keys_addNewRecords_complete key X (keysOf key S) k
      ((mem_keysOf key X k).mpr ⟨a, ha, hk⟩) hkS)

theorem msgLE_trans (a b c : Msg) (h1 : msgLE a b = true) (h2 : msgLE b c = true) :
    msgLE a c = true := by
  simp only [msgLE, decide_eq_true_eq] at *
  omega

theorem msgLE_total (a b : Msg) : (msgLE a b || msgLE b a) = true := by
  simp only [msgLE, Bool.or_eq_true, decide_eq_true_eq]
  omega

/-- C9: each of the three merges is idempotent — replaying the same
payload leaves the stored list exactly as after the first merge. -/
theorem merge_idempotent (S X : List LoginRec) (S' X' : List ChannelRec) (T U : List Msg) :
    merge_logins (merge_logins S X) X = merge_logins S X ∧
      merge_channels (merge_channels S' X') X' = merge_channels S' X' ∧
      merge_messages (merge_messages T U) U = merge_messages T U := by
  refine ⟨?_, ?_, ?_⟩
  · unfold merge_logins
    rw [addNewRecords_idem_nil loginKey S X, List.append_nil]
  · unfold merge_channels
    rw [addNewRecords_idem_nil channelKey S' X', List.append_nil]
  · unfold merge_messages
    have hnil : addNewRecords msgKey
        (keysOf msgKey
          ((T ++ addNewRecords msgKey (keysOf msgKey T) U).mergeSort msgLE)) U = [] := by
      apply addNewRecords_eq_nil
      intro a ha k hk
      apply (mem_keysOf msgKey _ k).mpr
      have hk2 : ∃ r ∈ T ++ addNewRecords msgKey (keysOf msgKey T) U,
          msgKey r = some k := by
        by_cases hkT : k ∈ keysOf msgKey T
        · obtain ⟨r, hr, hrk⟩ := (mem_keysOf msgKey T k).mp hkT
          exact ⟨r, List.mem_append_left _ hr, hrk⟩
        · have hkU : k ∈ keysOf msgKey (addNewRecords msgKey (keysOf msgKey T) U) :=
            keys_addNewRecords_complete msgKey U (keysOf msgKey T) k
              ((mem_keysOf msgKey U k).mpr ⟨a, ha, hk⟩) hkT
          obtain ⟨r, hr, hrk⟩ := (mem_keysOf msgKey _ k).mp hkU
          exact ⟨r, List.mem_append_right _ hr, hrk⟩
      obtain ⟨r, hr, hrk⟩ := hk2
      exact ⟨r, List.mem_mergeSort.mpr hr, hrk⟩
    rw [hnil, List.append_nil]
    exact List.mergeSort_of_sorted (List.sorted_mergeSort msgLE_trans msgLE_total _)

/-- C1 counterexample: merging payloads `[{user:"a"}]` and `[{user:"b"}]`
onto the empty login store in the two orders produces differently ordered
stored lists (`[a, b]` vs `[b, a]`): the login merge appends, so the
stored list depends on delivery order. -/
theorem merge_commutativity_counterexample :
    merge_logins (merge_logins [] [⟨some "a", none, none⟩]) [⟨some "b", none, none⟩] ≠
      merge_logins (merge_logins [] [⟨some "b", none, none⟩]) [⟨some "a", none, none⟩] := by
  decide

theorem pairwise_strict_of_inj (l pool : List Msg)
    (hsub : ∀ m ∈ l, m ∈ pool)
    (hinj : ∀ a ∈ pool, ∀ b ∈ pool, msgSortKey a = msgSortKey b → a = b)
    (hs : l.Pairwise (fun a b => msgLE a b = true)) : l.Pairwise msgStrictLE := by
  refine List.Pairwise.imp_of_mem ?_ hs
  intro a b ha hb hr
  by_cases hk : msgSortKey a = msgSortKey b
  · exact Or.inr (Or.inr (hinj a (hsub a ha) b (hsub b hb) hk))
  · simp only [msgLE, decide_eq_true_eq] at hr
    rcases hr with h | ⟨h1, h2⟩
    · exact Or.inl h
    · refine Or.inr (Or.inl ⟨h1, lt_of_le_of_ne h2 ?_⟩)
      intro hc
      exact hk (Prod.ext h1 hc)

theorem merge_messages_mem_pool (T U V : List Msg) :
    ∀ m ∈ merge_messages (merge_messages T U) V, m ∈ T ++ U ++ V := by
  intro m hm
  unfold merge_messages at hm
  have hm := List.mem_mergeSort.mp hm
  rcases List.mem_append.mp hm with hm | hm
  · have hm := List.mem_mergeSort.mp hm
    rcases List.mem_append.mp hm with hm | hm
    · exact List.mem_append_left _ (List.mem_append_left _ hm)
    · exact List.mem_append_left _
        (List.mem_append_right _ (mem_addNewRecords_imp msgKey U _ hm).1)
  · exact List.mem_append_right _ (mem_addNewRecords_imp msgKey V _ hm).1

theorem merge_messages_comm (T U V : List Msg)
    (hinj : ∀ a ∈ T ++ U ++ V, ∀ b ∈ T ++ U ++ V, msgSortKey a = msgSortKey b → a = b) :
    merge_messages (merge_messages T U) V = merge_messages (merge_messages T V) U := by
  have hswapUV : ∀ c : Msg, c ∈ U ++ V → c ∈ T ++ U ++ V := by
    intro c hc
    rcases List.mem_append.mp hc with h | h
    · exact List.mem_append_left _ (List.mem_append_right _ h)
    · exact List.mem_append_right _ h
  have hkeyinj : ∀ a ∈ U ++ V, ∀ b ∈ U ++ V, ∀ k,
      msgKey a = some k → msgKey b = some k → a = b := by
    intro a ha b hb k h1 h2
    have e1 : get_message_id a = k := Option.some.inj h1
    have e2 : get_message_id b = k := Option.some.inj h2
    have hid : get_message_id a = get_message_id b := by rw [e1, e2]
    have hsk : msgSortKey a = msgSortKey b := by
      have ra : msgSortKey a = ((get_message_id a).1, (get_message_id a).2.1) := rfl
      have rb : msgSortKey b = ((get_message_id b).1, (get_message_id b).2.1) := rfl
      rw [ra, rb, hid]
    exact hinj a (hswapUV a ha) b (hswapUV b hb) hsk
  have hinjVU : ∀ a ∈ T ++ V ++ U, ∀ b ∈ T ++ V ++ U,
      msgSortKey a = msgSortKey b → a = b := by
    have hsw : ∀ c : Msg, c ∈ T ++ V ++ U → c ∈ T ++ U ++ V := by
      intro c hc
      simp only [List.mem_append] at hc
      simp only [List.mem_append]
      tauto
    exact fun a ha b hb hk => hinj a (hsw a ha) b (hsw b hb) hk
  have hcongr : ∀ W Z : List Msg,
      addNewRecords msgKey
        (keysOf msgKey ((T ++ addNewRecords msgKey (keysOf msgKey T) W).mergeSort msgLE)) Z =
      addNewRecords msgKey
        (keysOf msgKey T ++ keysOf msgKey (addNewRecords msgKey (keysOf msgKey T) W)) Z := by
    intro W Z
    apply addNewRecords_congr
    intro k
    rw [← keysOf_append]
    constructor
    · intro h
      obtain ⟨r, hr, hrk⟩ := (mem_keysOf msgKey _ k).mp h
      exact (mem_keysOf msgKey _ k).mpr ⟨r, List.mem_mergeSort.mp hr, hrk⟩
    · intro h
      obtain ⟨r, hr, hrk⟩ := (mem_keysOf msgKey _ k).mp h
      exact (mem_keysOf msgKey _ k).mpr ⟨r, List.mem_mergeSort.mpr hr, hrk⟩
  have hperm : ∀ W Z : List Msg,
      (merge_messages (merge_messages T W) Z).Perm
        (T ++ (addNewRecords msgKey (keysOf msgKey T) W ++
          addNewRecords msgKey
            (keysOf msgKey T ++ keysOf msgKey (addNewRecords msgKey (keysOf msgKey T) W)) Z)) := by
    intro W Z
    unfold merge_messages
    rw [hcongr W Z]
    refine (List.mergeSort_perm _ _).trans ?_
    rw [← List.append_assoc]
    exact List.Perm.append_right _ (List.mergeSort_perm _ _)
  have hp : (merge_messages (merge_messages T U) V).Perm
      (merge_messages (merge_messages T V) U) :=
    ((hperm U V).trans
      (List.Perm.append_left T (perm_two_phase msgKey (keysOf msgKey T) U V hkeyinj))).trans
      (hperm V U).symm
  have hs1 : (merge_messages (merge_messages T U) V).Pairwise msgStrictLE := by
    apply pairwise_strict_of_inj _ (T ++ U ++ V) (merge_messages_mem_pool T U V) hinj
    unfold merge_messages
    exact List.sorted_mergeSort msgLE_trans msgLE_total _
  have hs2 : (merge_messages (merge_messages T V) U).Pairwise msgStrictLE := by
    apply pairwise_strict_of_inj _ (T ++ V ++ U)
      (merge_messages_mem_pool T V U) hinjVU
    unfold merge_messages
    exact List.sorted_mergeSort msgLE_trans msgLE_total _
  exact List.eq_of_perm_of_sorted hp hs1 hs2

/-- C1 (amended): merge order is immaterial only up to the following.
For logins and channels the two orders yield the same multiset of stored
records (the lists are permutations of each other, but may differ in
order of appension) provided any two payload records bearing the same
identifying key are equal; for messages the two stored lists are
identical provided distinct records occurring in the store or payloads
never share the same `(timestamp, clock)` sort key (ties between
distinct records are broken by arrival order by the stable sort). -/
theorem merge_commutativity_amended
    (S X Y : List LoginRec) (S' X' Y' : List ChannelRec) (T U V : List Msg)
    (hL : ∀ a ∈ X ++ Y, ∀ b ∈ X ++ Y, ∀ k,
      loginKey a = some k → loginKey b = some k → a = b)
    (hC : ∀ a ∈ X' ++ Y', ∀ b ∈ X' ++ Y', ∀ k,
      channelKey a = some k → channelKey b = some k → a = b)
    (hM : ∀ a ∈ T ++ U ++ V, ∀ b ∈ T ++ U ++ V, msgSortKey a = msgSortKey b → a = b) :
    (merge_logins (merge_logins S X) Y).Perm (merge_logins (merge_logins S Y) X) ∧
      (merge_channels (merge_channels S' X') Y').Perm
        (merge_channels (merge_channels S' Y') X') ∧
      merge_messages (merge_messages T U) V = merge_messages (merge_messages T V) U := by
  refine ⟨?_, ?_, merge_messages_comm T U V hM⟩
  · unfold merge_logins
    rw [keysOf_append, keysOf_append, List.append_assoc, List.append_assoc]
    exact List.Perm.append_left S (perm_two_phase loginKey (keysOf loginKey S) X Y hL)
  · unfold merge_channels
    rw [keysOf_append, keysOf_append, List.append_assoc, List.append_assoc]
    exact List.Perm.append_left S' (perm_two_phase channelKey (keysOf channelKey S') X' Y' hC)

/-- Witness for `merge_commutativity_amended` on singleton payloads with
distinct keys and distinct sort keys. -/
theorem merge_commutativity_amended_witness :
    (merge_logins (merge_logins [] [⟨some "a", none, none⟩]) [⟨some "b", none, none⟩]).Perm
        (merge_logins (merge_logins [] [⟨some "b", none, none⟩]) [⟨some "a", none, none⟩]) ∧
      (merge_channels (merge_channels [] [⟨some "c1", none, none⟩])
          [⟨some "c2", none, none⟩]).Perm
        (merge_channels (merge_channels [] [⟨some "c2", none, none⟩])
          [⟨some "c1", none, none⟩]) ∧
      merge_messages (merge_messages []
          [⟨some "publish", some 1, some 1, some "u", none, some "c", none, some "x"⟩])
          [⟨some "publish", some 2, some 2, some "u", none, some "c", none, some "y"⟩] =
        merge_messages (merge_messages []
          [⟨some "publish", some 2, some 2, some "u", none, some "c", none, some "y"⟩])
          [⟨some "publish", some 1, some 1, some "u", none, some "c", none, some "x"⟩] :=
  merge_commutativity_amended [] _ _ [] _ _ [] _ _
    (by
      intro a ha b hb k h1 h2
      fin_cases ha <;> fin_cases hb <;> simp_all [loginKey])
    (by
      intro a ha b hb k h1 h2
      fin_cases ha <;> fin_cases hb <;> simp_all [channelKey])
    (by
      intro a ha b hb hk
      fin_cases ha <;> fin_cases hb <;> revert hk <;> decide)
